import Mathlib

/-!
The REDLINE standard library shim

A shallow embedding of `stdlib/rl_stdlib.hpp` (vector helpers),
`stdlib/rl_string.hpp` (string helpers) and `stdlib/rl_file.hpp` (whole-file read and
write), followed by theorems about them.

Conventions of the embedding:

* a `std::vector<T>` is a `List T`; a function that mutates its argument in place
  returns the new contents;
* a `std::string` is the list of its `char` elements (`Str`);
* `size_t` values are natural numbers (every position that occurs is bounded by a string
  or vector size, see `findFrom_bounds`); `std::string::npos` is `none`;
* `int` is the 32-bit two's complement integer of the LP64/LLP64 data models; the
  conversion of a wider value to `int` is `toInt`;
* a thrown exception or a loop that has not finished is an explicit `Outcome`;
* the file system is an explicit state (`FileSystem`) with POSIX behaviour; a
  `std::runtime_error` is `Except.error` carrying the C string that `what()` returns.
-/

namespace rl

/-! ## Data model -/

/-- A `std::string`, as the sequence of its `char` elements. -/
abbrev Str := List Char

/-- Conversion of a non-negative wide integer (`size_t`, or a non-negative `ptrdiff_t`) to the
32-bit `int`: the value modulo `2^32`, read in two's complement. -/
def toInt (n : Nat) : Int :=
  if n % 2 ^ 32 < 2 ^ 31 then ((n % 2 ^ 32 : Nat) : Int)
  else ((n % 2 ^ 32 : Nat) : Int) - 2 ^ 32

/-- How a call ends: it returns a value, it throws `std::out_of_range`, or its loop is still
running after the allotted number of tests of the loop condition. -/
inductive Outcome (α : Type) where
  | returned (a : α)
  | outOfRange
  | running
  deriving DecidableEq

/-! ## `rl_stdlib.hpp` -/

/-- The function `len`: `return vec.size();` with return type `int`. -/
def len {T : Type} (vec : List T) : Int :=
  toInt vec.length

/-- The function `append`: `vec.push_back(value);`. -/
def append {T : Type} (vec : List T) (value : T) : List T :=
  vec ++ [value]

/-- The call `std::sort(first, last)`: the standard fixes its result as an ascending rearrangement
of the range. Over a linear order there is exactly one such rearrangement
(`stdSort_unique`), computed here by insertion. -/
def stdSort {T : Type} [LinearOrder T] (vec : List T) : List T :=
  vec.insertionSort (· ≤ ·)

/-- The function `sort`: `std::sort(vec.begin(), vec.end());`. -/
def sort {T : Type} [LinearOrder T] (vec : List T) : List T :=
  stdSort vec

/-- The call `std::iter_swap(first + i, first + j)`: the elements at positions `i` and `j`
change places. -/
def iterSwap {T : Type} (vec : List T) (i j : Nat) : List T :=
  match vec[i]?, vec[j]? with
  | some a, some b => (vec.set i b).set j a
  | _, _ => vec

/-- The swaps of `std::reverse` from index `i` on, `todo` of them left: for each `i` it
applies `iter_swap` to the pair `first + i`, `(last - i) - 1`. -/
def stdReverseLoop {T : Type} : Nat → Nat → List T → List T
  | 0, _, vec => vec
  | todo + 1, i, vec => stdReverseLoop todo (i + 1) (iterSwap vec i (vec.length - i - 1))

/-- The call `std::reverse(first, last)`: the swaps for every `i < (last - first) / 2`. -/
def stdReverse {T : Type} (vec : List T) : List T :=
  stdReverseLoop (vec.length / 2) 0 vec

/-- The function `reverse`: `std::reverse(vec.begin(), vec.end());`. -/
def reverse {T : Type} (vec : List T) : List T :=
  stdReverse vec

/-- The call `std::find(vec.begin(), vec.end(), value)`, as the distance of the returned iterator
from `vec.begin()`: the position of the first element equal to `value`, and `vec.size()`
(the iterator `vec.end()`) when there is none. -/
def stdFind {T : Type} [DecidableEq T] : List T → T → Nat
  | [], _ => 0
  | a :: rest, value => if a = value then 0 else stdFind rest value + 1

/-- The function `find`: `std::distance(vec.begin(), it)` converted to the return type `int` when
`it != vec.end()`, and `-1` otherwise. -/
def find {T : Type} [DecidableEq T] (vec : List T) (value : T) : Int :=
  let it := stdFind vec value
  if it ≠ vec.length then toInt it else -1

/-! ## `rl_string.hpp` -/

/-- Scan for `needle` in the tail `t` of a string, where `t` begins at position `i`: the first
position at which `needle` matches, if any. -/
def findFrom (needle : Str) : Str → Nat → Option Nat
  | [], i => if needle.isPrefixOf [] then some i else none
  | c :: t, i => if needle.isPrefixOf (c :: t) then some i else findFrom needle t (i + 1)

/-- The call `s.find(needle, pos)`: the lowest position `p ≥ pos` with
`p + needle.size() ≤ s.size()` at which `needle` occurs in `s`; `none` is `npos`. -/
def strFind (s needle : Str) (pos : Nat) : Option Nat :=
  if pos ≤ s.length then findFrom needle (s.drop pos) pos else none

/-- The call `s.substr(pos, count)` (`count = none` is the default `npos`): throws
`std::out_of_range` (`none`) when `pos > s.size()`, and otherwise is the characters
`[pos, min(pos + count, size))`. -/
def substr (s : Str) (pos : Nat) (count : Option Nat) : Option Str :=
  if pos ≤ s.length then
    match count with
    | none => some (s.drop pos)
    | some n => some ((s.drop pos).take n)
  else none

/-- The function `contains`: `haystack.find(needle) != std::string::npos`. -/
def contains (haystack needle : Str) : Bool :=
  (strFind haystack needle 0).isSome

/-- The local variables of `split`. -/
structure SplitState where
  tokens : List Str
  start : Nat
  endPos : Option Nat
  deriving DecidableEq

/-- The body of the `while` loop of `split`, entered with `end = e`. The subtraction
`end - start` does not wrap because `end ≥ start` (`findFrom_bounds`). -/
def splitBody (s delimiter : Str) (st : SplitState) (e : Nat) : Option SplitState :=
  match substr s st.start (some (e - st.start)) with
  | none => none
  | some tok =>
    let start := e + delimiter.length
    some { tokens := st.tokens ++ [tok], start := start, endPos := strFind s delimiter start }

/-- The `while` loop of `split` and the statements after it; `fuel` bounds the number of times
the loop condition is tested. -/
def splitLoop (s delimiter : Str) : Nat → SplitState → Outcome (List Str)
  | 0, _ => .running
  | fuel + 1, st =>
    match st.endPos with
    | none =>
      match substr s st.start none with
      | none => .outOfRange
      | some tok => .returned (st.tokens ++ [tok])
    | some e =>
      match splitBody s delimiter st e with
      | none => .outOfRange
      | some st' => splitLoop s delimiter fuel st'

/-- The function `split`, run for at most `fuel` tests of its loop condition. -/
def split (fuel : Nat) (s delimiter : Str) : Outcome (List Str) :=
  splitLoop s delimiter fuel { tokens := [], start := 0, endPos := strFind s delimiter 0 }

/-- The executions of the loop body in the run of `splitLoop`, in order: for each one, the
local variables before it and after it. The recursion is that of `splitLoop`. -/
def splitIterations (s delimiter : Str) : Nat → SplitState → List (SplitState × SplitState)
  | 0, _ => []
  | fuel + 1, st =>
    match st.endPos with
    | none => []
    | some e =>
      match splitBody s delimiter st e with
      | none => []
      | some st' => (st, st') :: splitIterations s delimiter fuel st'

/-- The local variables of `split` when its loop is entered. -/
def splitInit (s delimiter : Str) : SplitState :=
  { tokens := [], start := 0, endPos := strFind s delimiter 0 }

/-- The `for` loop of `join` from index `i` on; `todo` bounds the number of iterations left,
which is `list.size() - i` since `i` goes up by one each time. Inside the body
`i < list.size()`, so `list.size() - 1` does not wrap. -/
def joinLoop (list : List Str) (delimiter : Str) : Nat → Nat → Str → Str
  | 0, _, result => result
  | todo + 1, i, result =>
    if h : i < list.length then
      let result := result ++ list[i]
      let result := if i < list.length - 1 then result ++ delimiter else result
      joinLoop list delimiter todo (i + 1) result
    else result

/-- The function `join`. -/
def join (list : List Str) (delimiter : Str) : Str :=
  joinLoop list delimiter list.length 0 []

/-! ## `rl_file.hpp` -/

/-- The C string of a `std::string`, `c_str()` read up to its terminator: the characters before
the first NUL. The stream constructors and `what()` see a string this way. -/
def cStr (s : Str) : Str :=
  s.takeWhile (fun c => decide (c ≠ Char.ofNat 0))

/-- What a path names: a regular file with its bytes, a directory, or a device that discards
what is written to it and yields nothing when read (`/dev/null`). -/
inductive Node where
  | regular (bytes : Str)
  | directory
  | nullDevice
  deriving DecidableEq

/-- The file system (POSIX) as `std::ifstream` and `std::ofstream` see it: what each path
names (`none` where there is nothing), the paths that cannot be opened for reading even
when something is there, the paths that cannot be opened for writing (no write permission,
or nothing there and nowhere to create a file), and the size up to which a file can be
written (a file-size limit, the room left on the disk; `none` when nothing limits it). -/
structure FileSystem where
  nodes : Str → Option Node
  readDenied : Str → Bool
  writeDenied : Str → Bool
  sizeLimit : Option Nat

/-- The file system with `node` at the path `name`. -/
def FileSystem.put (fs : FileSystem) (name : Str) (node : Node) : FileSystem :=
  { fs with nodes := fun p => if p = name then some node else fs.nodes p }

/-- The declaration `std::ifstream file(path);` and what `file.rdbuf()` then yields: `none`
when `file.is_open()` is false. The stream opens `path.c_str()`. A directory opens, and
reading it yields nothing. -/
def ifstreamOpen (fs : FileSystem) (path : Str) : Option Str :=
  match fs.nodes (cStr path) with
  | none => none
  | some node =>
    if fs.readDenied (cStr path) then none
    else
      match node with
      | .regular bytes => some bytes
      | .directory => some []
      | .nullDevice => some []

/-- The declaration `std::ofstream file(path);`: `none` when `file.is_open()` is false. The
stream opens `path.c_str()` in mode `ios::out`: a regular file is emptied, a missing one is
created empty, a device is left as it is, and a directory does not open. -/
def ofstreamOpen (fs : FileSystem) (path : Str) : Option FileSystem :=
  match fs.nodes (cStr path) with
  | some .directory => none
  | some .nullDevice => if fs.writeDenied (cStr path) then none else some fs
  | _ => if fs.writeDenied (cStr path) then none else some (fs.put (cStr path) (.regular []))

/-- The statement `file << content;` and the flush when the stream is closed at the end of the
scope: the bytes go after what the file holds, as far as the size limit lets them; a device
discards them. The state of the stream is not looked at afterwards. -/
def ofstreamWrite (fs : FileSystem) (path content : Str) : FileSystem :=
  match fs.nodes (cStr path) with
  | some (.regular bytes) =>
    match fs.sizeLimit with
    | none => fs.put (cStr path) (.regular (bytes ++ content))
    | some limit => fs.put (cStr path) (.regular (bytes ++ content.take (limit - bytes.length)))
  | _ => fs

/-- The function `read_file`. The error is the message of the `std::runtime_error`, as
`what()` gives it: a C string. -/
def read_file (fs : FileSystem) (path : Str) : Except Str Str :=
  match ifstreamOpen fs path with
  | none => .error (cStr ("Could not open file: ".toList ++ path))
  | some bytes => .ok bytes

/-- The function `write_file`: what the call returns or throws, and the file system it
leaves. -/
def write_file (fs : FileSystem) (path content : Str) : Except Str Bool × FileSystem :=
  match ofstreamOpen fs path with
  | none => (.error (cStr ("Could not write to file: ".toList ++ path)), fs)
  | some opened => (.ok true, ofstreamWrite opened path content)

/-- A file system with one file, `"log"`, holding `"old"`, that may be written but not read. -/
def writeOnlyLog : FileSystem :=
  { nodes := fun p => if p = ['l', 'o', 'g'] then some (.regular ['o', 'l', 'd']) else none
    readDenied := fun p => decide (p = ['l', 'o', 'g'])
    writeDenied := fun p => p.isEmpty
    sizeLimit := none }

/-- A file system with nothing in it, where a file can be created, read and written at every
path but the empty one; `limit` is its size limit. -/
def emptyDisk (limit : Option Nat) : FileSystem :=
  { nodes := fun _ => none
    readDenied := fun _ => false
    writeDenied := fun p => p.isEmpty
    sizeLimit := limit }

/-- A file system with nothing in it where nothing can be created. -/
def lockedDisk : FileSystem :=
  { nodes := fun _ => none
    readDenied := fun _ => false
    writeDenied := fun _ => true
    sizeLimit := none }

/-- A file system whose only entry is the device `"null"`, open to reading and writing. -/
def nullOnly : FileSystem :=
  { nodes := fun p => if p = ['n', 'u', 'l', 'l'] then some .nullDevice else none
    readDenied := fun _ => false
    writeDenied := fun p => p.isEmpty
    sizeLimit := none }

/-- The path made of an `m`, a NUL and an `x`. -/
def nulPath : Str :=
  ['m', Char.ofNat 0, 'x']

/-! ## Auxiliary definitions for the proofs -/

/-- The pieces into which the left-to-right scan for `d` cuts the text `t`; `n` bounds the number
of cuts. -/
def segsAux (d : Str) : Nat → Str → List Str
  | 0, t => [t]
  | n + 1, t =>
    match findFrom d t 0 with
    | none => [t]
    | some k => t.take k :: segsAux d n (t.drop (k + d.length))

/-- The pieces into which the left-to-right scan for `d` cuts the text `t`. -/
def segs (d t : Str) : List Str :=
  segsAux d t.length t

/-- No proper non-empty beginning of `d` is also an ending of `d`: two occurrences of `d` in a
text cannot overlap. -/
def Unbordered (d : Str) : Prop :=
  ∀ k < d.length, 0 < k → d.take k ≠ d.drop (d.length - k)

instance (d : Str) : Decidable (Unbordered d) := by
  unfold Unbordered
  infer_instance

/-! ## Conversion to `int` -/

theorem toInt_of_lt {n : Nat} (h : n < 2 ^ 31) : toInt n = (n : Int) := by
  have h1 : n % 2 ^ 32 = n := Nat.mod_eq_of_lt (by omega)
  unfold toInt
  rw [h1, if_pos h]

theorem toInt_two_pow_31 : toInt 2147483648 = -2147483648 := by
  decide

theorem toInt_two_pow_32_sub_one : toInt 4294967295 = -1 := by
  decide

/-! ## `find` -/

theorem stdFind_le {T : Type} [DecidableEq T] (v : List T) (x : T) :
    stdFind v x ≤ v.length := by
  induction v with
  | nil => simp [stdFind]
  | cons a rest ih =>
    by_cases h : a = x
    · simp [stdFind, h]
    · simp [stdFind, h, ih]

theorem stdFind_eq_length_iff {T : Type} [DecidableEq T] (v : List T) (x : T) :
    stdFind v x = v.length ↔ x ∉ v := by
  induction v with
  | nil => simp [stdFind]
  | cons a rest ih =>
    by_cases h : a = x
    · simp [stdFind, h]
    · have h2 : ¬ x = a := fun e => h e.symm
      simp [stdFind, h, h2, ih]

theorem stdFind_lt_of_mem {T : Type} [DecidableEq T] {v : List T} {x : T} (hx : x ∈ v) :
    stdFind v x < v.length := by
  have h1 := stdFind_le v x
  have h2 : stdFind v x ≠ v.length := fun e => (stdFind_eq_length_iff v x).mp e hx
  omega

theorem stdFind_get {T : Type} [DecidableEq T] (v : List T) (x : T) (i : Nat)
    (hi : stdFind v x = i) (hlt : i < v.length) : v[i]? = some x := by
  induction v generalizing i with
  | nil => simp at hlt
  | cons a rest ih =>
    by_cases h : a = x
    · simp [stdFind, h] at hi
      subst hi
      simp [h]
    · simp [stdFind, h] at hi
      subst hi
      simp only [List.length_cons, Nat.add_lt_add_iff_right] at hlt
      simpa using ih _ rfl hlt

theorem stdFind_first {T : Type} [DecidableEq T] (v : List T) (x : T) (j : Nat)
    (hj : j < stdFind v x) : v[j]? ≠ some x := by
  induction v generalizing j with
  | nil => simp
  | cons a rest ih =>
    by_cases h : a = x
    · simp [stdFind, h] at hj
    · simp [stdFind, h] at hj
      cases j with
      | zero => simpa using h
      | succ j => simpa using ih j (by omega)

theorem stdFind_replicate_append {T : Type} [DecidableEq T] (n : Nat) (a x : T) (h : a ≠ x) :
    stdFind (List.replicate n a ++ [x]) x = n := by
  induction n with
  | zero => simp [stdFind]
  | succ n ih => simp [List.replicate_succ, stdFind, h, ih]

/-- Below `2^31` the narrowing to `int` is harmless: `find` returns the zero-based position of
the first occurrence of a value that occurs before position `2^31`. -/
theorem find_first_occurrence_of_small {T : Type} [DecidableEq T] (v : List T) (x : T)
    (hx : x ∈ v) (hsmall : stdFind v x < 2 ^ 31) :
    ∃ i : Nat, find v x = (i : Int) ∧ i < v.length ∧ v[i]? = some x ∧
      ∀ j, j < i → v[j]? ≠ some x := by
  have hlt := stdFind_lt_of_mem hx
  refine ⟨stdFind v x, ?_, hlt, stdFind_get v x _ rfl hlt, fun j hj => stdFind_first v x j hj⟩
  unfold find
  simp only [ne_eq, Nat.ne_of_lt hlt, not_false_eq_true, if_true]
  exact toInt_of_lt hsmall

theorem find_replicate_append {T : Type} [DecidableEq T] (n : Nat) (a x : T) (h : a ≠ x) :
    find (List.replicate n a ++ [x]) x = toInt n := by
  unfold find
  rw [stdFind_replicate_append n a x h]
  simp

/-- Claim C2, at a vector whose first occurrence lies at position `2^31`: the value `1` occurs
in the vector of `2^31` zeros followed by a one, and `find` returns the negative number
`-2147483648` there instead of the position `2147483648`; with `2^32 - 1` zeros in front,
`find` returns `-1`, the answer for an absent value. -/
theorem C2_find_narrows_index :
    (1 : Nat) ∈ List.replicate 2147483648 0 ++ [1] ∧
    find (List.replicate 2147483648 0 ++ [1]) (1 : Nat) = -2147483648 ∧
    (1 : Nat) ∈ List.replicate 4294967295 0 ++ [1] ∧
    find (List.replicate 4294967295 0 ++ [1]) (1 : Nat) = -1 :=
  ⟨List.mem_append_right _ (List.mem_singleton_self 1),
   (find_replicate_append 2147483648 0 1 (by decide)).trans toInt_two_pow_31,
   List.mem_append_right _ (List.mem_singleton_self 1),
   (find_replicate_append 4294967295 0 1 (by decide)).trans toInt_two_pow_32_sub_one⟩

/-- Claim C3: for every sequence, the empty one included, and every value that does not occur
in it, `find` returns `-1`; `find` is a total function, so absence is an ordinary return
value. -/
theorem C3_find_absent {T : Type} [DecidableEq T] (v : List T) (x : T) (hx : x ∉ v) :
    find v x = -1 := by
  unfold find
  simp [(stdFind_eq_length_iff v x).mpr hx]

theorem C3_find_absent_witness :
    (7 : Nat) ∉ [3, 1, 2] ∧ find ([] : List Nat) 7 = -1 ∧ find [3, 1, 2] (7 : Nat) = -1 :=
  ⟨by decide, C3_find_absent [] 7 (by decide), C3_find_absent [3, 1, 2] 7 (by decide)⟩

/-! ## `sort` -/

/-- An ascending rearrangement of a sequence over a linear order is the one `stdSort` computes:
the contract of `std::sort` leaves no freedom there. -/
theorem stdSort_unique {T : Type} [LinearOrder T] (v w : List T)
    (hperm : w.Perm v) (hsorted : List.Sorted (· ≤ ·) w) : w = stdSort v :=
  List.eq_of_perm_of_sorted (hperm.trans (List.perm_insertionSort (· ≤ ·) v).symm) hsorted
    (List.sorted_insertionSort (· ≤ ·) v)

/-- Claim C4: over a linearly ordered element type, `sort` leaves the sequence in ascending
order (every element is at most each later one, in particular its successor) and a
permutation of the original, every value keeping its multiplicity; `sort [3,1,2]` is
`[1,2,3]`, and an empty or one-element sequence is unchanged. -/
theorem C4_sort_ascending_perm {T : Type} [LinearOrder T] (v : List T) :
    List.Sorted (· ≤ ·) (sort v) ∧
    (∀ i, ∀ h : i + 1 < (sort v).length, (sort v)[i] ≤ (sort v)[i + 1]) ∧
    (sort v).Perm v ∧
    (∀ a, (sort v).count a = v.count a) ∧
    sort ([3, 1, 2] : List Int) = [1, 2, 3] ∧
    sort ([] : List T) = [] ∧
    ∀ a : T, sort [a] = [a] := by
  have hs : List.Sorted (· ≤ ·) (sort v) := List.sorted_insertionSort (· ≤ ·) v
  have hp : (sort v).Perm v := List.perm_insertionSort (· ≤ ·) v
  refine ⟨hs, ?_, hp, fun a => hp.count_eq a, by decide, rfl, fun a => rfl⟩
  intro i h
  exact List.pairwise_iff_getElem.mp hs i (i + 1) (by omega) h (by omega)

/-! ## `len` and `append` -/

theorem len_of_small {T : Type} (v : List T) (h : v.length < 2 ^ 31) :
    len v = (v.length : Int) :=
  toInt_of_lt h

theorem len_replicate {T : Type} (n : Nat) (a : T) : len (List.replicate n a) = toInt n := by
  unfold len
  rw [List.length_replicate]

theorem len_append_replicate {T : Type} (n : Nat) (a : T) :
    len (append (List.replicate n a) a) = toInt (n + 1) := by
  unfold len append
  rw [List.length_append, List.length_replicate, List.length_singleton]

/-- Short of `2^31 - 1` elements `append` behaves as documented: `len` goes up by one, the
new last element is the appended value and the earlier positions keep their elements. -/
theorem append_spec_of_small {T : Type} (v : List T) (x : T) (h : v.length + 1 < 2 ^ 31) :
    len (append v x) = len v + 1 ∧ (append v x).getLast? = some x ∧
      ∀ i, i < v.length → (append v x)[i]? = v[i]? := by
  refine ⟨?_, by simp [append], fun i hi => by simp [append, List.getElem?_append_left hi]⟩
  rw [len_of_small v (by omega), len_of_small (append v x) (by simpa [append] using h)]
  simp [append]

/-- The parts of claim C10 that do not go through `len`: after `append` the sequence has one
more element, its last element is the appended value, and the earlier positions hold what
they held. -/
theorem append_contents {T : Type} (v : List T) (x : T) :
    (append v x).length = v.length + 1 ∧ (append v x).getLast? = some x ∧
      ∀ i, i < v.length → (append v x)[i]? = v[i]? :=
  ⟨by simp [append], by simp [append], fun i hi => by simp [append, List.getElem?_append_left hi]⟩

/-- Claim C10, at a vector of `2^31 - 1` elements: `len` returns `2147483647` before the
`append` and `-2147483648` after it, not `2147483648`, so `len` after the call is not `len`
before the call plus one. -/
theorem C10_len_append_narrows :
    len (List.replicate 2147483647 (0 : Nat)) = 2147483647 ∧
    len (append (List.replicate 2147483647 (0 : Nat)) 0) = -2147483648 ∧
    len (append (List.replicate 2147483647 (0 : Nat)) 0) ≠
      len (List.replicate 2147483647 (0 : Nat)) + 1 := by
  have h1 : len (List.replicate 2147483647 (0 : Nat)) = 2147483647 :=
    (len_replicate 2147483647 0).trans (by decide)
  have h2 : len (append (List.replicate 2147483647 (0 : Nat)) 0) = -2147483648 :=
    (len_append_replicate 2147483647 0).trans (by decide)
  refine ⟨h1, h2, ?_⟩
  rw [h1, h2]
  decide

/-! ## `std::string::find` -/

theorem findFrom_pos (d t : Str) (i : Nat) (h : d <+: t) : findFrom d t i = some i := by
  have h2 : d.isPrefixOf t = true := List.isPrefixOf_iff_prefix.mpr h
  cases t with
  | nil => simp [findFrom, h2]
  | cons c t => simp [findFrom, h2]

theorem findFrom_nil_neg (d : Str) (i : Nat) (h : ¬ d <+: []) : findFrom d [] i = none := by
  have h2 : ¬ d.isPrefixOf [] = true := fun e => h (List.isPrefixOf_iff_prefix.mp e)
  simp [findFrom, h2]

theorem findFrom_cons_neg (d t : Str) (c : Char) (i : Nat) (h : ¬ d <+: c :: t) :
    findFrom d (c :: t) i = findFrom d t (i + 1) := by
  have h2 : ¬ d.isPrefixOf (c :: t) = true := fun e => h (List.isPrefixOf_iff_prefix.mp e)
  simp [findFrom, h2]

theorem findFrom_shift (d t : Str) (i : Nat) :
    findFrom d t i = (findFrom d t 0).map (· + i) := by
  induction t generalizing i with
  | nil =>
    by_cases h : d <+: []
    · simp [findFrom_pos d [] _ h]
    · simp [findFrom_nil_neg d _ h]
  | cons c t ih =>
    by_cases h : d <+: c :: t
    · simp [findFrom_pos d (c :: t) _ h]
    · rw [findFrom_cons_neg d t c i h, findFrom_cons_neg d t c 0 h, ih (i + 1), ih (0 + 1),
        Option.map_map]
      congr 1
      funext k
      simp only [Function.comp_apply]
      omega

theorem findFrom_none_iff (d t : Str) (i : Nat) : findFrom d t i = none ↔ ¬ d <:+: t := by
  induction t generalizing i with
  | nil =>
    by_cases h : d <+: []
    · rw [findFrom_pos d [] i h]
      simp [List.infix_nil, List.prefix_nil.mp h]
    · simp only [findFrom_nil_neg d _ h, true_iff]
      exact fun hi => h (List.prefix_nil.mpr (List.infix_nil.mp hi))
  | cons c t ih =>
    by_cases h : d <+: c :: t
    · simp [findFrom_pos d (c :: t) _ h, List.infix_cons_iff, h]
    · rw [findFrom_cons_neg d t c i h, ih (i + 1), List.infix_cons_iff]
      simp [h]

/-- What a successful scan returns: the first position at which the needle matches. -/
theorem findFrom_some (d t : Str) (k : Nat) (h : findFrom d t 0 = some k) :
    d <+: t.drop k ∧ ∀ j, j < k → ¬ d <+: t.drop j := by
  induction t generalizing k with
  | nil =>
    by_cases hp : d <+: []
    · rw [findFrom_pos d [] _ hp, Option.some.injEq] at h
      subst h
      exact ⟨hp, fun j hj => absurd hj (Nat.not_lt_zero j)⟩
    · rw [findFrom_nil_neg d _ hp] at h
      exact absurd h (by simp)
  | cons c t ih =>
    by_cases hp : d <+: c :: t
    · rw [findFrom_pos d (c :: t) _ hp, Option.some.injEq] at h
      subst h
      exact ⟨hp, fun j hj => absurd hj (Nat.not_lt_zero j)⟩
    · rw [findFrom_cons_neg d t c 0 hp, findFrom_shift] at h
      cases hk : findFrom d t 0 with
      | none => simp [hk] at h
      | some k' =>
        simp only [hk, Option.map_some', Option.some.injEq] at h
        subst h
        obtain ⟨h1, h2⟩ := ih k' hk
        refine ⟨by simpa using h1, ?_⟩
        intro j hj
        cases j with
        | zero => exact fun hq => hp (by simpa using hq)
        | succ j => simpa using h2 j (by omega)

/-- The positions `find` returns lie inside the string: a match at offset `k` of the tail `t`
ends at or before the end of `t`. -/
theorem findFrom_bounds (d t : Str) (k : Nat) (h : findFrom d t 0 = some k) :
    k + d.length ≤ t.length := by
  have h1 := (findFrom_some d t k h).1.length_le
  rw [List.length_drop] at h1
  by_cases hk : k ≤ t.length
  · by_cases hd : d.length = 0
    · omega
    · omega
  · have h2 : List.drop k t = [] := List.drop_eq_nil_of_le (by omega)
    have h3 := (findFrom_some d t k h).1
    rw [h2, List.prefix_nil] at h3
    subst h3
    have h4 := (findFrom_some [] t k h).2 0 (by omega)
    exact absurd (List.nil_prefix) h4

theorem strFind_eq (s d : Str) (pos : Nat) (h : pos ≤ s.length) :
    strFind s d pos = (findFrom d (s.drop pos) 0).map (· + pos) := by
  unfold strFind
  rw [if_pos h, findFrom_shift]

/-- A successful scan cuts the tail into the part before the match, the needle, and the rest. -/
theorem findFrom_split (d t : Str) (k : Nat) (h : findFrom d t 0 = some k) :
    t = t.take k ++ d ++ t.drop (k + d.length) := by
  have h1 := (findFrom_some d t k h).1
  rw [List.prefix_iff_eq_append, List.drop_drop] at h1
  rw [List.append_assoc, h1, List.take_append_drop]

/-! ## `contains` -/

theorem contains_eq_true_iff (haystack needle : Str) :
    contains haystack needle = true ↔ needle <:+: haystack := by
  unfold contains
  rw [strFind_eq haystack needle 0 (Nat.zero_le _), Option.isSome_map', List.drop_zero,
    Option.isSome_iff_ne_none, ne_eq, findFrom_none_iff, not_not]

/-- Claim C6: `contains haystack needle` is true exactly when `haystack` is `p ++ needle ++ q`
for some strings `p` and `q`; hence every string contains the empty string, and the empty
string contains only the empty string. -/
theorem C6_contains_iff_substring (haystack needle : Str) :
    (contains haystack needle = true ↔ ∃ p q, haystack = p ++ needle ++ q) ∧
    contains haystack [] = true ∧
    (contains [] needle = true ↔ needle = []) := by
  refine ⟨?_, ?_, ?_⟩
  · rw [contains_eq_true_iff]
    constructor
    · rintro ⟨p, q, h⟩
      exact ⟨p, q, h.symm⟩
    · rintro ⟨p, q, h⟩
      exact ⟨p, q, h.symm⟩
  · rw [contains_eq_true_iff]
    exact List.nil_infix
  · rw [contains_eq_true_iff, List.infix_nil]

/-! ## `join` -/

theorem joinLoop_cons (p : Str) (l : List Str) (d : Str) (n i : Nat) (r : Str) :
    joinLoop (p :: l) d n (i + 1) r = joinLoop l d n i r := by
  induction n generalizing i r with
  | zero => rfl
  | succ n ih =>
    have e : (i + 1 < l.length + 1 - 1) = (i < l.length - 1) := by
      apply propext
      omega
    simp only [joinLoop, List.length_cons, Nat.add_lt_add_iff_right, List.getElem_cons_succ, e, ih]

theorem joinLoop_acc (l : List Str) (d : Str) (n i : Nat) (r r' : Str) :
    joinLoop l d n i (r ++ r') = r ++ joinLoop l d n i r' := by
  induction n generalizing i r' with
  | zero => rfl
  | succ n ih =>
    simp only [joinLoop]
    by_cases h : i < l.length
    · by_cases h2 : i < l.length - 1
      · simp only [h, h2, dite_true, if_true, List.append_assoc, ih]
      · simp only [h, h2, dite_true, if_false, List.append_assoc, ih]
    · simp only [h, dite_false]

theorem join_nil (d : Str) : join [] d = [] := rfl

theorem join_singleton (p d : Str) : join [p] d = p := by
  simp [join, joinLoop]

theorem join_cons_cons (p q : Str) (rest : List Str) (d : Str) :
    join (p :: q :: rest) d = p ++ d ++ join (q :: rest) d := by
  have h : join (p :: q :: rest) d
      = joinLoop (p :: q :: rest) d (rest.length + 1) (0 + 1) ([] ++ p ++ d) := by
    simp [join, joinLoop]
  rw [h, joinLoop_cons, List.nil_append, ← List.append_nil (p ++ d), joinLoop_acc,
    List.append_nil]
  rfl

/-- The loop of `join` stops by its own test: iterations allowed beyond `list.size()` are
not used. -/
theorem joinLoop_extra (l : List Str) (d : Str) (n i : Nat) (r : Str) (h : l.length ≤ i) :
    joinLoop l d n i r = r := by
  cases n with
  | zero => rfl
  | succ n => simp [joinLoop, Nat.not_lt.mpr h]

theorem join_eq_intercalate (parts : List Str) (d : Str) :
    join parts d = d.intercalate parts := by
  induction parts with
  | nil => rfl
  | cons p rest ih =>
    cases rest with
    | nil => simp [join_singleton, List.intercalate]
    | cons q rest =>
      rw [join_cons_cons, ih]
      simp [List.intercalate, List.intersperse]

/-- Claim C5: `join parts d` is the concatenation of the elements of `parts` in order with `d`
between each adjacent pair and nowhere else, for every delimiter, the empty one included:
`join [] d` is empty, `join [p] d` is `p`, and `join (p :: rest) d` is
`p ++ d ++ join rest d` when `rest` is not empty; `join ["a","b","c"] "-"` is `"a-b-c"`. -/
theorem C5_join_concatenates (d : Str) :
    join [] d = [] ∧
    (∀ p, join [p] d = p) ∧
    (∀ p q rest, join (p :: q :: rest) d = p ++ d ++ join (q :: rest) d) ∧
    (∀ parts, join parts d = (parts.intersperse d).flatten) ∧
    join [['a'], ['b'], ['c']] ['-'] = ['a', '-', 'b', '-', 'c'] ∧
    join [['s', 'o', 'l', 'o']] ['-'] = ['s', 'o', 'l', 'o'] :=
  ⟨join_nil d, fun p => join_singleton p d, fun p q rest => join_cons_cons p q rest d,
    fun parts => join_eq_intercalate parts d, by decide, by decide⟩

/-! ## `split`: the loop computes the pieces `segs` -/

theorem segsAux_of_none (d t : Str) (n : Nat) (h : findFrom d t 0 = none) :
    segsAux d n t = [t] := by
  cases n with
  | zero => rfl
  | succ n => simp [segsAux, h]

theorem segsAux_of_some (d t : Str) (n k : Nat) (h : findFrom d t 0 = some k) :
    segsAux d (n + 1) t = t.take k :: segsAux d n (t.drop (k + d.length)) := by
  simp [segsAux, h]

theorem splitLoop_eq_segs (s d : Str) (hd : d ≠ []) (fuel : Nat) :
    ∀ (n start : Nat) (tokens : List Str), start ≤ s.length → s.length - start < fuel →
      s.length - start ≤ n →
      splitLoop s d fuel { tokens := tokens, start := start, endPos := strFind s d start }
        = .returned (tokens ++ segsAux d n (s.drop start)) := by
  induction fuel with
  | zero =>
    intro n start tokens _ h
    omega
  | succ fuel ih =>
    intro n start tokens hs hf hn
    rw [strFind_eq s d start hs]
    cases hk : findFrom d (s.drop start) 0 with
    | none =>
      rw [segsAux_of_none _ _ _ hk]
      simp [splitLoop, substr, hs]
    | some k =>
      have hb := findFrom_bounds d (s.drop start) k hk
      rw [List.length_drop] at hb
      have hdl : 0 < d.length := List.length_pos.mpr hd
      obtain ⟨n', rfl⟩ : ∃ n', n = n' + 1 := ⟨n - 1, by omega⟩
      rw [segsAux_of_some _ _ _ _ hk]
      simp only [splitLoop, Option.map_some', splitBody, substr, hs, if_true]
      rw [ih n' (k + start + d.length) _ (by omega) (by omega) (by omega)]
      have e1 : k + start - start = k := by omega
      have e2 : start + (k + d.length) = k + start + d.length := by omega
      simp [List.drop_drop, e1, e2]

/-- With a non-empty delimiter, `split` returns, and returns the pieces `segs`, as soon as it
is allowed more tests of its loop condition than the text has characters. -/
theorem split_eq_segs (s d : Str) (hd : d ≠ []) (fuel : Nat) (h : s.length < fuel) :
    split fuel s d = .returned (segs d s) := by
  have h1 := splitLoop_eq_segs s d hd fuel s.length 0 [] (Nat.zero_le _) (by omega) (by omega)
  simpa [split, segs] using h1

/-! ## Properties of the pieces -/

theorem segsAux_ne_nil (d t : Str) (n : Nat) : segsAux d n t ≠ [] := by
  cases n with
  | zero => simp [segsAux]
  | succ n =>
    cases hk : findFrom d t 0 with
    | none => simp [segsAux, hk]
    | some k => simp [segsAux, hk]

theorem join_cons_of_ne_nil (p : Str) (l : List Str) (d : Str) (hl : l ≠ []) :
    join (p :: l) d = p ++ d ++ join l d := by
  cases l with
  | nil => exact absurd rfl hl
  | cons q rest => exact join_cons_cons p q rest d

theorem join_segsAux (d : Str) (hd : d ≠ []) (n : Nat) :
    ∀ t : Str, t.length ≤ n → join (segsAux d n t) d = t := by
  induction n with
  | zero =>
    intro t _
    exact join_singleton t d
  | succ n ih =>
    intro t ht
    cases hk : findFrom d t 0 with
    | none =>
      rw [segsAux_of_none _ _ _ hk]
      exact join_singleton t d
    | some k =>
      have hb := findFrom_bounds d t k hk
      have hdl : 0 < d.length := List.length_pos.mpr hd
      rw [segsAux_of_some _ _ _ _ hk, join_cons_of_ne_nil _ _ _ (segsAux_ne_nil _ _ _),
        ih _ (by rw [List.length_drop]; omega)]
      exact (findFrom_split d t k hk).symm

theorem prefix_drop_of_occurrence {d x : Str} (h : d <:+: x) :
    ∃ j, j + d.length ≤ x.length ∧ d <+: x.drop j := by
  obtain ⟨a, b, rfl⟩ := h
  refine ⟨a.length, by simp, ?_⟩
  rw [List.append_assoc, List.drop_left]
  exact List.prefix_append d b

theorem not_infix_take_of_first (d t : Str) (hd : d ≠ []) (k : Nat)
    (hfirst : ∀ j, j < k → ¬ d <+: t.drop j) : ¬ d <:+: t.take k := by
  intro h
  obtain ⟨j, hj, hp⟩ := prefix_drop_of_occurrence h
  have hdl : 0 < d.length := List.length_pos.mpr hd
  have hlen : (t.take k).length ≤ k := by
    rw [List.length_take]
    exact Nat.min_le_left _ _
  rw [List.drop_take, List.prefix_take_iff] at hp
  exact hfirst j (by omega) hp.1

theorem segsAux_no_delimiter (d : Str) (hd : d ≠ []) (n : Nat) :
    ∀ t : Str, t.length ≤ n → ∀ x ∈ segsAux d n t, ¬ d <:+: x := by
  induction n with
  | zero =>
    intro t ht x hx
    have ht0 : t = [] := List.length_eq_zero.mp (Nat.le_zero.mp ht)
    simp only [segsAux, List.mem_singleton] at hx
    rw [hx, ht0, List.infix_nil]
    exact hd
  | succ n ih =>
    intro t ht x hx
    cases hk : findFrom d t 0 with
    | none =>
      rw [segsAux_of_none _ _ _ hk, List.mem_singleton] at hx
      rw [hx]
      exact (findFrom_none_iff d t 0).mp hk
    | some k =>
      have hb := findFrom_bounds d t k hk
      have hdl : 0 < d.length := List.length_pos.mpr hd
      rw [segsAux_of_some _ _ _ _ hk, List.mem_cons] at hx
      rcases hx with hx | hx
      · rw [hx]
        exact not_infix_take_of_first d t hd k (findFrom_some d t k hk).2
      · exact ih _ (by rw [List.length_drop]; omega) x hx

/-- Two occurrences of an unbordered string do not overlap. -/
theorem no_overlap_of_unbordered (d t : Str) (hu : Unbordered d) (k p : Nat)
    (hk : d <+: t.drop k) (hp : d <+: t.drop p) (hkp : k < p) : k + d.length ≤ p := by
  by_contra hlt
  have hlt2 : p < k + d.length := Nat.lt_of_not_le hlt
  obtain ⟨r1, hr1⟩ := hk
  obtain ⟨r2, hr2⟩ := hp
  have e1 : t.drop p = d.drop (p - k) ++ r1 := by
    have : t.drop p = (t.drop k).drop (p - k) := by
      rw [List.drop_drop]
      congr 1
      omega
    rw [this, ← hr1, List.drop_append_of_le_length (by omega)]
  have e2 : d.take (d.length - (p - k)) = d.drop (p - k) := by
    have h3 : (d ++ r2).take (d.length - (p - k)) = (d.drop (p - k) ++ r1).take (d.length - (p - k)) := by
      rw [hr2, e1]
    rw [List.take_append_of_le_length (by omega), List.take_left' (by rw [List.length_drop])] at h3
    exact h3
  have h4 := hu (d.length - (p - k)) (by omega) (by omega)
  apply h4
  rw [e2]
  congr 1
  omega

theorem segsAux_last_of_suffix (d : Str) (hd : d ≠ []) (hu : Unbordered d) (n : Nat) :
    ∀ t : Str, t.length ≤ n → d <:+ t → (segsAux d n t).getLast? = some [] := by
  induction n with
  | zero =>
    intro t ht hs
    have ht0 : t = [] := List.length_eq_zero.mp (Nat.le_zero.mp ht)
    rw [ht0] at hs
    exact absurd (List.suffix_nil.mp hs) hd
  | succ n ih =>
    intro t ht hs
    have hdl : 0 < d.length := List.length_pos.mpr hd
    have hle : d.length ≤ t.length := hs.length_le
    have hp : d <+: t.drop (t.length - d.length) := by
      rw [← List.suffix_iff_eq_drop.mp hs]
    cases hk : findFrom d t 0 with
    | none => exact absurd hs.isInfix ((findFrom_none_iff d t 0).mp hk)
    | some k =>
      obtain ⟨hk1, hk2⟩ := findFrom_some d t k hk
      have hb := findFrom_bounds d t k hk
      rw [segsAux_of_some _ _ _ _ hk]
      have hkp : k ≤ t.length - d.length := by
        by_contra hc
        exact hk2 _ (Nat.lt_of_not_le hc) hp
      rcases Nat.eq_or_lt_of_le hkp with heq | hlt
      · have e : t.drop (k + d.length) = [] := List.drop_eq_nil_of_le (by omega)
        rw [e, segsAux_of_none d [] n (findFrom_nil_neg d 0 (fun h => hd (List.prefix_nil.mp h)))]
        rfl
      · have hno := no_overlap_of_unbordered d t hu k (t.length - d.length) hk1 hp hlt
        have hs2 : d <:+ t.drop (k + d.length) := by
          rw [List.suffix_iff_eq_drop, List.length_drop, List.drop_drop]
          have e : k + d.length + (t.length - (k + d.length) - d.length) = t.length - d.length := by
            omega
          rw [e]
          exact List.suffix_iff_eq_drop.mp hs
        have h5 := ih _ (by rw [List.length_drop]; omega) hs2
        have hne := segsAux_ne_nil d (t.drop (k + d.length)) n
        cases hl : segsAux d n (t.drop (k + d.length)) with
        | nil => exact absurd hl hne
        | cons y ys =>
          rw [hl] at h5
          rw [List.getLast?_cons_cons]
          exact h5

theorem unbordered_singleton (c : Char) : Unbordered [c] := by
  intro k hk hpos
  simp only [List.length_singleton] at hk
  omega

/-- The condition on the delimiter in the amended claim C9 cannot be weakened: a delimiter `d`
with a border of length `k` is a suffix of the text `d ++ d.drop k`, and `split` returns
`["", d.drop k]` there, whose last piece is not empty. -/
theorem trailing_piece_of_bordered (d : Str) (k : Nat) (hk0 : 0 < k) (hk : k < d.length)
    (hb : d.take k = d.drop (d.length - k)) :
    d <:+ d ++ d.drop k ∧ d.drop k ≠ [] ∧
      ∀ fuel, (d ++ d.drop k).length < fuel →
        split fuel (d ++ d.drop k) d = .returned [[], d.drop k] := by
  have hd : d ≠ [] := List.ne_nil_of_length_pos (by omega)
  have hlen : (d.drop k).length = d.length - k := List.length_drop k d
  refine ⟨?_, ?_, ?_⟩
  · refine ⟨d.take (d.length - k), ?_⟩
    have e : d ++ d.drop k = d.take (d.length - k) ++ (d.drop (d.length - k) ++ d.drop k) := by
      rw [← List.append_assoc, List.take_append_drop]
    rw [e, ← hb, List.take_append_drop]
  · intro h
    rw [h, List.length_nil] at hlen
    omega
  · intro fuel hf
    rw [split_eq_segs _ d hd fuel hf]
    have h0 : findFrom d (d ++ d.drop k) 0 = some 0 :=
      findFrom_pos d _ 0 (List.prefix_append d _)
    have h1 : findFrom d (d.drop k) 0 = none := by
      rw [findFrom_none_iff]
      intro hi
      have := hi.length_le
      omega
    obtain ⟨n, hn⟩ : ∃ n, (d ++ d.drop k).length = n + 1 :=
      ⟨(d ++ d.drop k).length - 1, by rw [List.length_append]; omega⟩
    unfold segs
    rw [hn, segsAux_of_some _ _ _ _ h0, Nat.zero_add, List.drop_left, List.take_zero,
      segsAux_of_none _ _ _ h1]

/-! ## `split` and `join`: the claims -/

/-- Claim C1: for every string `s` and every non-empty delimiter `d`, `split` returns (it is
done within `s.length + 1` tests of its loop condition and throws nothing) and joining
the returned pieces with `d` gives back `s`, also when occurrences of `d` overlap in
`s`. -/
theorem C1_join_split_roundtrip (s d : Str) (hd : d ≠ []) :
    ∃ tokens, (∀ fuel, s.length < fuel → split fuel s d = .returned tokens) ∧
      join tokens d = s :=
  ⟨segs d s, fun fuel h => split_eq_segs s d hd fuel h, join_segsAux d hd s.length s le_rfl⟩

theorem C1_join_split_roundtrip_witness :
    (['a', 'a'] : Str) ≠ [] ∧
    ∃ tokens, (∀ fuel, 3 < fuel → split fuel ['a', 'a', 'a'] ['a', 'a'] = .returned tokens) ∧
      join tokens ['a', 'a'] = ['a', 'a', 'a'] :=
  ⟨by decide, C1_join_split_roundtrip ['a', 'a', 'a'] ['a', 'a'] (by decide)⟩

/-- Claim C7: when the non-empty delimiter `d` does not occur in `text`, `split` returns the
one-element sequence `[text]`, at the first test of its loop condition; in particular
the empty text gives `[""]`. -/
theorem C7_split_without_delimiter (text d : Str) (hd : d ≠ [])
    (hno : ¬ ∃ p q, text = p ++ d ++ q) :
    (∀ fuel, 0 < fuel → split fuel text d = .returned [text]) ∧
    (∀ fuel, 0 < fuel → split fuel [] d = .returned [[]]) := by
  have h1 : strFind text d 0 = none := by
    rw [strFind_eq text d 0 (Nat.zero_le _), List.drop_zero]
    have : findFrom d text 0 = none := by
      rw [findFrom_none_iff]
      rintro ⟨p, q, h⟩
      exact hno ⟨p, q, h.symm⟩
    rw [this]
    rfl
  have h2 : strFind [] d 0 = none := by
    rw [strFind_eq [] d 0 (Nat.zero_le _), List.drop_zero,
      findFrom_nil_neg d 0 (fun h => hd (List.prefix_nil.mp h))]
    rfl
  constructor
  · intro fuel hf
    obtain ⟨n, rfl⟩ : ∃ n, fuel = n + 1 := ⟨fuel - 1, by omega⟩
    simp [split, splitLoop, h1, substr]
  · intro fuel hf
    obtain ⟨n, rfl⟩ : ∃ n, fuel = n + 1 := ⟨fuel - 1, by omega⟩
    simp [split, splitLoop, h2, substr]

theorem C7_split_without_delimiter_witness :
    split 1 ['a', 'b', 'c'] [','] = .returned [['a', 'b', 'c']] :=
  (C7_split_without_delimiter ['a', 'b', 'c'] [','] (by decide)
    (by
      rintro ⟨p, q, h⟩
      have hm : ',' ∈ p ++ [','] ++ q := by simp
      rw [← h] at hm
      revert hm
      decide)).1 1 (by decide)

/-- Claim C8: with a non-empty delimiter `d`, `split` returns, and no returned piece has `d`
as a contiguous substring (no piece is `p ++ d ++ q`; `contains` is false on each). -/
theorem C8_split_excludes_delimiter (text d : Str) (hd : d ≠ []) :
    ∃ tokens, (∀ fuel, text.length < fuel → split fuel text d = .returned tokens) ∧
      ∀ t ∈ tokens, (¬ ∃ p q, t = p ++ d ++ q) ∧ contains t d = false := by
  refine ⟨segs d text, fun fuel h => split_eq_segs text d hd fuel h, ?_⟩
  intro t ht
  have h := segsAux_no_delimiter d hd text.length text le_rfl t ht
  constructor
  · rintro ⟨p, q, e⟩
    exact h ⟨p, q, e.symm⟩
  · cases hc : contains t d with
    | false => rfl
    | true => exact absurd ((contains_eq_true_iff t d).mp hc) h

theorem C8_split_excludes_delimiter_witness :
    (['a', 'a'] : Str) ≠ [] ∧
    ∃ tokens, (∀ fuel, 5 < fuel →
        split fuel ['a', 'a', 'a', ',', 'a'] ['a', 'a'] = .returned tokens) ∧
      ∀ t ∈ tokens, (¬ ∃ p q, t = p ++ ['a', 'a'] ++ q) ∧ contains t ['a', 'a'] = false :=
  ⟨by decide, C8_split_excludes_delimiter ['a', 'a', 'a', ',', 'a'] ['a', 'a'] (by decide)⟩

/-- Claim C9 fails when occurrences of the delimiter overlap: `"aaa"` ends with the non-empty
delimiter `"aa"`, and `split` returns `["", "a"]`, whose last element is `"a"`. -/
theorem C9_counterexample_overlap :
    (['a', 'a'] : Str) ≠ [] ∧ (['a', 'a'] : Str) <:+ ['a', 'a', 'a'] ∧
    (∀ fuel, 3 < fuel → split fuel ['a', 'a', 'a'] ['a', 'a'] = .returned [[], ['a']]) ∧
    ([[], ['a']] : List Str).getLast? ≠ some [] := by
  refine ⟨by decide, ⟨['a'], rfl⟩, ?_, by decide⟩
  intro fuel h
  rw [split_eq_segs ['a', 'a', 'a'] ['a', 'a'] (by decide) fuel h]
  decide

/-- Claim C9, amended: when no proper non-empty beginning of the non-empty delimiter `d` is
also an ending of `d` (occurrences of `d` cannot overlap; every one-character delimiter is
such) and `text` ends with `d`, `split` returns and the last returned piece is the empty
string. -/
theorem C9_trailing_empty_unbordered (text d : Str) (hd : d ≠ []) (hu : Unbordered d)
    (hend : d <:+ text) :
    ∃ tokens, (∀ fuel, text.length < fuel → split fuel text d = .returned tokens) ∧
      tokens.getLast? = some [] :=
  ⟨segs d text, fun fuel h => split_eq_segs text d hd fuel h,
    segsAux_last_of_suffix d hd hu text.length text le_rfl hend⟩

theorem C9_trailing_empty_unbordered_witness :
    (([','] : Str) ≠ [] ∧ Unbordered [','] ∧ ([','] : Str) <:+ ['a', ',', 'b', ',']) ∧
    ∃ tokens, (∀ fuel, 4 < fuel → split fuel ['a', ',', 'b', ','] [','] = .returned tokens) ∧
      tokens.getLast? = some [] :=
  ⟨⟨by decide, by decide, ⟨['a', ',', 'b'], rfl⟩⟩,
    C9_trailing_empty_unbordered ['a', ',', 'b', ','] [','] (by decide) (by decide)
      ⟨['a', ',', 'b'], rfl⟩⟩

/-! ## `reverse` -/

theorem iterSwap_length {T : Type} (w : List T) (i j : Nat) :
    (iterSwap w i j).length = w.length := by
  unfold iterSwap
  split
  · simp
  · rfl

theorem iterSwap_getElem? {T : Type} (w : List T) (i j k : Nat) (hi : i < w.length)
    (hj : j < w.length) :
    (iterSwap w i j)[k]? = if k = j then w[i]? else if k = i then w[j]? else w[k]? := by
  unfold iterSwap
  rw [List.getElem?_eq_getElem hi, List.getElem?_eq_getElem hj]
  simp only [List.getElem?_set, List.length_set, hi, hj, if_true]
  by_cases h1 : j = k
  · simp [h1]
  · have h1' : ¬ k = j := fun e => h1 e.symm
    by_cases h2 : i = k
    · simp [h1, h1', h2]
    · have h2' : ¬ k = i := fun e => h2 e.symm
      simp [h1, h1', h2, h2']

/-- The state of the vector between the swaps of `std::reverse`: once the pairs below `i` are
swapped, the positions below `i` and the last `i` positions hold the mirrored elements, and
the positions in between hold what they held. -/
theorem stdReverseLoop_spec {T : Type} (v : List T) :
    ∀ (todo i : Nat) (w : List T), w.length = v.length → i + todo ≤ v.length / 2 →
      (∀ k, k < v.length →
        w[k]? = if k < i ∨ v.length - i ≤ k then v[v.length - 1 - k]? else v[k]?) →
      (stdReverseLoop todo i w).length = v.length ∧
      ∀ k, k < v.length →
        (stdReverseLoop todo i w)[k]? =
          if k < i + todo ∨ v.length - (i + todo) ≤ k then v[v.length - 1 - k]? else v[k]? := by
  intro todo
  induction todo with
  | zero =>
    intro i w hlen _ hw
    exact ⟨hlen, hw⟩
  | succ todo ih =>
    intro i w hlen hi hw
    have hdiv : 2 * (v.length / 2) ≤ v.length := by omega
    have hi1 : i < w.length := by omega
    have hj1 : w.length - i - 1 < w.length := by omega
    have hstep := ih (i + 1) (iterSwap w i (w.length - i - 1))
      (by rw [iterSwap_length, hlen]) (by omega) ?_
    · have e : i + 1 + todo = i + (todo + 1) := by omega
      rw [e] at hstep
      exact hstep
    · intro k hk
      rw [iterSwap_getElem? w i (w.length - i - 1) k hi1 hj1, hlen]
      by_cases h1 : k = v.length - i - 1
      · rw [if_pos h1, hw i (by omega), if_neg (by omega), if_pos (by omega)]
        congr 1
        omega
      · rw [if_neg h1]
        by_cases h2 : k = i
        · rw [if_pos h2, hw (v.length - i - 1) (by omega), if_neg (by omega), if_pos (by omega)]
          congr 1
          omega
        · rw [if_neg h2, hw k hk]
          by_cases h3 : k < i ∨ v.length - i ≤ k
          · rw [if_pos h3, if_pos (by omega)]
          · rw [if_neg h3, if_neg (by omega)]

/-- The swaps of `std::reverse` produce the reversed list. -/
theorem stdReverse_eq_reverse {T : Type} (v : List T) : stdReverse v = v.reverse := by
  obtain ⟨hlen, hget⟩ := stdReverseLoop_spec v (v.length / 2) 0 v rfl (by omega)
    (fun k hk => by rw [if_neg (by omega)])
  apply List.ext_getElem?
  intro k
  by_cases hk : k < v.length
  · rw [List.getElem?_reverse hk]
    have h := hget k hk
    by_cases h3 : k < 0 + v.length / 2 ∨ v.length - (0 + v.length / 2) ≤ k
    · rw [if_pos h3] at h
      exact h
    · rw [if_neg h3] at h
      rw [show stdReverse v = stdReverseLoop (v.length / 2) 0 v from rfl, h]
      congr 1
      omega
  · have h1 : (stdReverse v)[k]? = none :=
      List.getElem?_eq_none (by
        show (stdReverseLoop (v.length / 2) 0 v).length ≤ k
        omega)
    have h2 : v.reverse[k]? = none :=
      List.getElem?_eq_none (by rw [List.length_reverse]; omega)
    rw [h1, h2]

/-- Claim C11: after `reverse` the sequence has the length `n` it had, and for every `i < n`
the element at position `i` is the element that was at position `n - 1 - i`. -/
theorem C11_reverse_inverts_order {T : Type} (v : List T) :
    (reverse v).length = v.length ∧
    ∀ i, ∀ h : i < v.length,
      (reverse v)[i]? = some (v.get ⟨v.length - 1 - i, by omega⟩) := by
  have e : reverse v = v.reverse := stdReverse_eq_reverse v
  refine ⟨by rw [e, List.length_reverse], fun i h => ?_⟩
  rw [e, List.getElem?_reverse h, List.getElem?_eq_getElem (by omega)]
  rfl

theorem C11_reverse_inverts_order_witness :
    (reverse [10, 20, 30]).length = 3 ∧ (reverse [10, 20, 30])[0]? = some 30 :=
  ⟨(C11_reverse_inverts_order [10, 20, 30]).1,
    (C11_reverse_inverts_order [10, 20, 30]).2 0 (by decide)⟩

/-- Claim C12: applying `reverse` twice gives back the original sequence. -/
theorem C12_reverse_reverse {T : Type} (v : List T) : reverse (reverse v) = v := by
  have e : ∀ w : List T, reverse w = w.reverse := stdReverse_eq_reverse
  rw [e, e, List.reverse_reverse]

/-! ## `read_file` and `write_file` -/

theorem cStr_append_of_no_nul (a b : Str) (ha : ∀ c ∈ a, c ≠ Char.ofNat 0) :
    cStr (a ++ b) = a ++ cStr b := by
  induction a with
  | nil => rfl
  | cons x a ih =>
    have hx : x ≠ Char.ofNat 0 := ha x (List.mem_cons_self x a)
    have ih' := ih (fun c hc => ha c (List.mem_cons_of_mem x hc))
    unfold cStr at ih' ⊢
    rw [List.cons_append, List.takeWhile_cons, if_pos (by simpa using hx), ih']
    rfl

theorem cStr_of_no_nul (path : Str) (h : Char.ofNat 0 ∉ path) : cStr path = path := by
  have := cStr_append_of_no_nul path [] (fun c hc e => h (e ▸ hc))
  simpa [cStr] using this

theorem read_message (path : Str) :
    cStr ("Could not open file: ".toList ++ path) = "Could not open file: ".toList ++ cStr path :=
  cStr_append_of_no_nul _ path (by decide)

theorem write_message (path : Str) :
    cStr ("Could not write to file: ".toList ++ path)
      = "Could not write to file: ".toList ++ cStr path :=
  cStr_append_of_no_nul _ path (by decide)

theorem put_nodes_self (fs : FileSystem) (name : Str) (node : Node) :
    (fs.put name node).nodes name = some node := by
  simp [FileSystem.put]

/-- The run of `write_file` on a path that names a regular file, or nothing yet, and can be
opened for writing: it returns `true`, and the file then holds the content as far as the
size limit lets it; the permissions are as before. -/
theorem write_file_regular (fs : FileSystem) (path content : Str)
    (hnode : fs.nodes (cStr path) = none ∨ ∃ old, fs.nodes (cStr path) = some (.regular old))
    (hw : fs.writeDenied (cStr path) = false) :
    (write_file fs path content).1 = .ok true ∧
    (write_file fs path content).2.nodes (cStr path)
      = some (.regular (match fs.sizeLimit with
          | none => content
          | some limit => content.take limit)) ∧
    (write_file fs path content).2.readDenied = fs.readDenied := by
  have hopen : ofstreamOpen fs path = some (fs.put (cStr path) (.regular [])) := by
    rcases hnode with h | ⟨old, h⟩ <;> simp [ofstreamOpen, h, hw]
  have hnodes : (fs.put (cStr path) (.regular [])).nodes (cStr path) = some (.regular []) :=
    put_nodes_self fs _ _
  have hlimit : (fs.put (cStr path) (.regular [])).sizeLimit = fs.sizeLimit := rfl
  unfold write_file
  rw [hopen]
  cases hl : fs.sizeLimit with
  | none =>
    have e : ofstreamWrite (fs.put (cStr path) (.regular [])) path content
        = (fs.put (cStr path) (.regular [])).put (cStr path) (.regular ([] ++ content)) := by
      simp [ofstreamWrite, hnodes, hlimit, hl]
    refine ⟨rfl, ?_, ?_⟩
    · show (ofstreamWrite _ path content).nodes (cStr path) = _
      rw [e, put_nodes_self]
      rfl
    · show (ofstreamWrite _ path content).readDenied = _
      rw [e]
      rfl
  | some limit =>
    have e : ofstreamWrite (fs.put (cStr path) (.regular [])) path content
        = (fs.put (cStr path) (.regular [])).put (cStr path)
            (.regular ([] ++ content.take (limit - ([] : Str).length))) := by
      simp [ofstreamWrite, hnodes, hlimit, hl]
    refine ⟨rfl, ?_, ?_⟩
    · show (ofstreamWrite _ path content).nodes (cStr path) = _
      rw [e, put_nodes_self]
      rfl
    · show (ofstreamWrite _ path content).readDenied = _
      rw [e]
      rfl

/-- The write that `write_file` does not check: on a disk with no room left the path opens,
nothing of `"x"` is stored, and `write_file` still returns `true`; the file reads back
empty. -/
theorem write_file_true_when_cut_short :
    (write_file (emptyDisk (some 0)) ['f'] ['x']).1 = .ok true ∧
    (write_file (emptyDisk (some 0)) ['f'] ['x']).2.nodes ['f'] = some (.regular []) ∧
    read_file (write_file (emptyDisk (some 0)) ['f'] ['x']).2 ['f'] = .ok [] :=
  ⟨rfl, rfl, rfl⟩

/-- Claim C13 fails at paths that can be opened for writing, by what the file system does
with them: the file `"log"` of `writeOnlyLog` may be written but not read, `write_file`
stores `"x"` and returns `true`, and the following `read_file` throws; the device `"null"`
of `nullOnly` takes the write and reads back empty. -/
theorem C13_counterexample_write_only :
    ofstreamOpen writeOnlyLog ['l', 'o', 'g'] ≠ none ∧
    (write_file writeOnlyLog ['l', 'o', 'g'] ['x']).1 = .ok true ∧
    (write_file writeOnlyLog ['l', 'o', 'g'] ['x']).2.nodes ['l', 'o', 'g']
      = some (.regular ['x']) ∧
    read_file (write_file writeOnlyLog ['l', 'o', 'g'] ['x']).2 ['l', 'o', 'g']
      = .error "Could not open file: log".toList ∧
    ofstreamOpen nullOnly ['n', 'u', 'l', 'l'] ≠ none ∧
    (write_file nullOnly ['n', 'u', 'l', 'l'] ['x']).1 = .ok true ∧
    read_file (write_file nullOnly ['n', 'u', 'l', 'l'] ['x']).2 ['n', 'u', 'l', 'l'] = .ok [] := by
  refine ⟨?_, rfl, rfl, rfl, ?_, rfl, rfl⟩
  · intro h
    cases h
  · intro h
    cases h

/-- Claim C13, amended: for every path that names a regular file or nothing yet, that can be
opened for writing and for reading, every content that the size limit of the file system
lets through in full, and any prior contents of the file, `write_file` returns `true`, the
file then holds exactly `content`, and a following `read_file` of the path returns exactly
`content`. -/
theorem C13_write_then_read (fs : FileSystem) (path content : Str)
    (hnode : fs.nodes (cStr path) = none ∨ ∃ old, fs.nodes (cStr path) = some (.regular old))
    (hw : fs.writeDenied (cStr path) = false) (hr : fs.readDenied (cStr path) = false)
    (hfits : ∀ limit, fs.sizeLimit = some limit → content.length ≤ limit) :
    (write_file fs path content).1 = .ok true ∧
    (write_file fs path content).2.nodes (cStr path) = some (.regular content) ∧
    read_file (write_file fs path content).2 path = .ok content := by
  obtain ⟨h1, h2, h3⟩ := write_file_regular fs path content hnode hw
  have hstored : (match fs.sizeLimit with
      | none => content
      | some limit => content.take limit) = content := by
    cases hl : fs.sizeLimit with
    | none => rfl
    | some limit => exact List.take_of_length_le (hfits limit hl)
  rw [hstored] at h2
  refine ⟨h1, h2, ?_⟩
  simp [read_file, ifstreamOpen, h2, h3, hr]

theorem C13_write_then_read_witness :
    (write_file ((emptyDisk (some 5)).put ['f'] (.regular ['o', 'l', 'd'])) ['f'] ['x']).1
      = .ok true ∧
    (write_file ((emptyDisk (some 5)).put ['f'] (.regular ['o', 'l', 'd'])) ['f'] ['x']).2.nodes
        (cStr ['f']) = some (.regular ['x']) ∧
    read_file (write_file ((emptyDisk (some 5)).put ['f'] (.regular ['o', 'l', 'd'])) ['f']
        ['x']).2 ['f']
      = .ok ['x'] :=
  C13_write_then_read ((emptyDisk (some 5)).put ['f'] (.regular ['o', 'l', 'd'])) ['f'] ['x']
    (Or.inr ⟨['o', 'l', 'd'], rfl⟩) rfl rfl
    (fun limit h => by
      cases h
      decide)

/-- Claim C14 fails for a path with a NUL in it: nothing is at `"m"`, `read_file` of the path
`nulPath` throws, and the message is `"Could not open file: m"`, not the fixed text followed
by the path; likewise for `write_file` where nothing can be created. -/
theorem C14_counterexample_nul_path :
    read_file (emptyDisk none) nulPath = .error "Could not open file: m".toList ∧
    read_file (emptyDisk none) nulPath ≠ .error ("Could not open file: ".toList ++ nulPath) ∧
    (write_file lockedDisk nulPath ['x']).1 = .error "Could not write to file: m".toList ∧
    (write_file lockedDisk nulPath ['x']).1
      ≠ .error ("Could not write to file: ".toList ++ nulPath) := by
  refine ⟨rfl, ?_, rfl, ?_⟩
  · intro h
    have h2 : read_file (emptyDisk none) nulPath = .error "Could not open file: m".toList := rfl
    have h3 : "Could not open file: m".toList = "Could not open file: ".toList ++ nulPath :=
      Except.error.inj (h2.symm.trans h)
    exact absurd (congrArg List.length h3) (by decide)
  · intro h
    have h2 : (write_file lockedDisk nulPath ['x']).1
        = .error "Could not write to file: m".toList := rfl
    have h3 : "Could not write to file: m".toList
        = "Could not write to file: ".toList ++ nulPath :=
      Except.error.inj (h2.symm.trans h)
    exact absurd (congrArg List.length h3) (by decide)

theorem read_file_throws_iff (fs : FileSystem) (path : Str) :
    ((fs.nodes (cStr path) = none ∨ fs.readDenied (cStr path) = true) ↔
      read_file fs path = .error ("Could not open file: ".toList ++ cStr path)) ∧
    ((fs.nodes (cStr path) = none ∨ fs.readDenied (cStr path) = true) ↔
      ∀ bytes, read_file fs path ≠ .ok bytes) := by
  unfold read_file ifstreamOpen
  rw [read_message]
  cases hn : fs.nodes (cStr path) with
  | none => simp
  | some node =>
    cases hr : fs.readDenied (cStr path) with
    | true => simp
    | false => cases node <;> simp

theorem write_file_throws_iff (fs : FileSystem) (path content : Str) :
    ((fs.nodes (cStr path) = some .directory ∨ fs.writeDenied (cStr path) = true) ↔
      write_file fs path content
        = (.error ("Could not write to file: ".toList ++ cStr path), fs)) ∧
    ((fs.nodes (cStr path) = some .directory ∨ fs.writeDenied (cStr path) = true) ↔
      ∀ r, (write_file fs path content).1 ≠ .ok r) := by
  unfold write_file ofstreamOpen
  rw [write_message]
  cases hn : fs.nodes (cStr path) with
  | none =>
    cases hw : fs.writeDenied (cStr path) <;> simp
  | some node =>
    cases hw : fs.writeDenied (cStr path) <;> cases node <;> simp

/-- Claim C14, amended: `read_file` throws exactly when the path cannot be opened for reading
(nothing is there, or reading is denied), and `write_file` exactly when it cannot be opened
for writing (a directory is there, or writing is denied); the message of the error is a
fixed text followed by the path as a C string, that is up to its first NUL, which is the
whole path when there is no NUL in it; a call that throws returns neither a content nor a
success indicator, and `write_file` then leaves the file system as it was. -/
theorem C14_failure_iff_cannot_open (fs : FileSystem) (path content : Str) :
    ((fs.nodes (cStr path) = none ∨ fs.readDenied (cStr path) = true) ↔
      read_file fs path = .error ("Could not open file: ".toList ++ cStr path)) ∧
    ((fs.nodes (cStr path) = none ∨ fs.readDenied (cStr path) = true) ↔
      ∀ bytes, read_file fs path ≠ .ok bytes) ∧
    ((fs.nodes (cStr path) = some .directory ∨ fs.writeDenied (cStr path) = true) ↔
      write_file fs path content
        = (.error ("Could not write to file: ".toList ++ cStr path), fs)) ∧
    ((fs.nodes (cStr path) = some .directory ∨ fs.writeDenied (cStr path) = true) ↔
      ∀ r, (write_file fs path content).1 ≠ .ok r) ∧
    (Char.ofNat 0 ∉ path → cStr path = path) :=
  ⟨(read_file_throws_iff fs path).1, (read_file_throws_iff fs path).2,
    (write_file_throws_iff fs path content).1, (write_file_throws_iff fs path content).2,
    cStr_of_no_nul path⟩

/-! ## The iterations of the loop of `split` -/

/-- With a non-empty delimiter the loop of `split` is done after `fuel` tests of its condition
as soon as `fuel` delimiters do not fit into what is left of the text. -/
theorem splitLoop_eq_segs_of_mul (s d : Str) (hd : d ≠ []) (fuel : Nat) :
    ∀ (n start : Nat) (tokens : List Str), start ≤ s.length →
      s.length - start < fuel * d.length → s.length - start ≤ n →
      splitLoop s d fuel { tokens := tokens, start := start, endPos := strFind s d start }
        = .returned (tokens ++ segsAux d n (s.drop start)) := by
  induction fuel with
  | zero =>
    intro n start tokens _ h
    omega
  | succ fuel ih =>
    intro n start tokens hs hf hn
    rw [strFind_eq s d start hs]
    cases hk : findFrom d (s.drop start) 0 with
    | none =>
      rw [segsAux_of_none _ _ _ hk]
      simp [splitLoop, substr, hs]
    | some k =>
      have hb := findFrom_bounds d (s.drop start) k hk
      rw [List.length_drop] at hb
      have hdl : 0 < d.length := List.length_pos.mpr hd
      have hmul : (fuel + 1) * d.length = fuel * d.length + d.length := Nat.succ_mul _ _
      obtain ⟨n', rfl⟩ : ∃ n', n = n' + 1 := ⟨n - 1, by omega⟩
      rw [segsAux_of_some _ _ _ _ hk]
      simp only [splitLoop, Option.map_some', splitBody, substr, hs, if_true]
      rw [ih n' (k + start + d.length) _ (by omega) (by omega) (by omega)]
      have e1 : k + start - start = k := by omega
      have e2 : start + (k + d.length) = k + start + d.length := by omega
      simp [List.drop_drop, e1, e2]

theorem split_eq_segs_of_div (s d : Str) (hd : d ≠ []) (fuel : Nat)
    (h : s.length / d.length < fuel) : split fuel s d = .returned (segs d s) := by
  have hdl : 0 < d.length := List.length_pos.mpr hd
  have h2 : s.length < fuel * d.length := (Nat.div_lt_iff_lt_mul hdl).mp h
  have h1 := splitLoop_eq_segs_of_mul s d hd fuel s.length 0 [] (Nat.zero_le _)
    (by omega) (by omega)
  simpa [split, segs] using h1

/-- What the executions of the loop body do, from a state in which `end` is the result of the
search from `start`: each one is entered with a match `e` at or after `start`, appends the
text between `start` and `e`, and moves `start` to `e + d.length`, which is beyond the old
`start` and within the text; `d.length` characters are used up each time. -/
theorem splitIterations_spec (s d : Str) (hd : d ≠ []) (fuel : Nat) :
    ∀ (start : Nat) (tokens : List Str), start ≤ s.length →
      (∀ it ∈ splitIterations s d fuel
          { tokens := tokens, start := start, endPos := strFind s d start },
        ∃ e, it.1.endPos = some e ∧ strFind s d it.1.start = some e ∧ it.1.start ≤ e ∧
          it.2.start = e + d.length ∧ it.1.start < it.2.start ∧ it.2.start ≤ s.length ∧
          it.2.tokens = it.1.tokens ++ [(s.drop it.1.start).take (e - it.1.start)]) ∧
      (splitIterations s d fuel
          { tokens := tokens, start := start, endPos := strFind s d start }).length * d.length
        + start ≤ s.length := by
  induction fuel with
  | zero =>
    intro start tokens hs
    simp [splitIterations, hs]
  | succ fuel ih =>
    intro start tokens hs
    cases hk : findFrom d (s.drop start) 0 with
    | none =>
      have hfind : strFind s d start = none := by
        rw [strFind_eq s d start hs, hk]
        rfl
      simp [splitIterations, hfind, hs]
    | some k =>
      have hfind : strFind s d start = some (k + start) := by
        rw [strFind_eq s d start hs, hk]
        rfl
      have hb := findFrom_bounds d (s.drop start) k hk
      rw [List.length_drop] at hb
      have hdl : 0 < d.length := List.length_pos.mpr hd
      obtain ⟨ih1, ih2⟩ := ih (k + start + d.length)
        (tokens ++ [(s.drop start).take (k + start - start)]) (by omega)
      have hbody : splitBody s d
          { tokens := tokens, start := start, endPos := some (k + start) } (k + start)
          = some { tokens := tokens ++ [(s.drop start).take (k + start - start)],
                   start := k + start + d.length,
                   endPos := strFind s d (k + start + d.length) } := by
        simp [splitBody, substr, hs]
      have hunfold : splitIterations s d (fuel + 1)
          { tokens := tokens, start := start, endPos := some (k + start) }
          = ({ tokens := tokens, start := start, endPos := some (k + start) },
             { tokens := tokens ++ [(s.drop start).take (k + start - start)],
               start := k + start + d.length,
               endPos := strFind s d (k + start + d.length) })
            :: splitIterations s d fuel
                { tokens := tokens ++ [(s.drop start).take (k + start - start)],
                  start := k + start + d.length,
                  endPos := strFind s d (k + start + d.length) } := by
        rw [splitIterations]
        simp only [hbody]
      rw [hfind, hunfold]
      constructor
      · intro it hit
        rcases List.mem_cons.mp hit with rfl | hit'
        · exact ⟨k + start, rfl, hfind, by simp, rfl, by simp; omega, by simp; omega, rfl⟩
        · exact ih1 it hit'
      · rw [List.length_cons, Nat.succ_mul]
        omega

theorem splitIterations_of_none (s d : Str) (fuel start : Nat) (tokens : List Str)
    (hs : start ≤ s.length) (hk : findFrom d (s.drop start) 0 = none) :
    splitIterations s d fuel { tokens := tokens, start := start, endPos := strFind s d start }
      = [] := by
  have hfind : strFind s d start = none := by
    rw [strFind_eq s d start hs, hk]
    rfl
  cases fuel with
  | zero => rfl
  | succ fuel => simp [splitIterations, hfind]

theorem splitIterations_of_some (s d : Str) (fuel start k : Nat) (tokens : List Str)
    (hs : start ≤ s.length) (hk : findFrom d (s.drop start) 0 = some k) :
    splitIterations s d (fuel + 1)
        { tokens := tokens, start := start, endPos := strFind s d start }
      = ({ tokens := tokens, start := start, endPos := some (k + start) },
         { tokens := tokens ++ [(s.drop start).take k],
           start := k + start + d.length,
           endPos := strFind s d (k + start + d.length) })
        :: splitIterations s d fuel
            { tokens := tokens ++ [(s.drop start).take k],
              start := k + start + d.length,
              endPos := strFind s d (k + start + d.length) } := by
  have hfind : strFind s d start = some (k + start) := by
    rw [strFind_eq s d start hs, hk]
    rfl
  have hbody : splitBody s d
      { tokens := tokens, start := start, endPos := some (k + start) } (k + start)
      = some { tokens := tokens ++ [(s.drop start).take k],
               start := k + start + d.length,
               endPos := strFind s d (k + start + d.length) } := by
    simp [splitBody, substr, hs]
  rw [hfind, splitIterations]
  simp only [hbody]

/-- The run of `split` pushes one piece per execution of the loop body and one more after the
loop. -/
theorem segsAux_length_eq_iterations (s d : Str) (hd : d ≠ []) (fuel : Nat) :
    ∀ (n start : Nat) (tokens : List Str), start ≤ s.length →
      s.length - start < fuel * d.length → s.length - start ≤ n →
      (segsAux d n (s.drop start)).length
        = (splitIterations s d fuel
            { tokens := tokens, start := start, endPos := strFind s d start }).length + 1 := by
  induction fuel with
  | zero =>
    intro n start tokens _ h
    omega
  | succ fuel ih =>
    intro n start tokens hs hf hn
    cases hk : findFrom d (s.drop start) 0 with
    | none =>
      rw [segsAux_of_none _ _ _ hk, splitIterations_of_none s d _ start tokens hs hk]
      rfl
    | some k =>
      have hb := findFrom_bounds d (s.drop start) k hk
      rw [List.length_drop] at hb
      have hdl : 0 < d.length := List.length_pos.mpr hd
      have hmul : (fuel + 1) * d.length = fuel * d.length + d.length := Nat.succ_mul _ _
      obtain ⟨n', rfl⟩ : ∃ n', n = n' + 1 := ⟨n - 1, by omega⟩
      have e2 : start + (k + d.length) = k + start + d.length := by omega
      rw [segsAux_of_some _ _ _ _ hk, splitIterations_of_some s d fuel start k tokens hs hk,
        List.length_cons, List.length_cons, List.drop_drop, e2,
        ih n' (k + start + d.length) (tokens ++ [(s.drop start).take k]) (by omega) (by omega)
          (by omega)]

/-- Claim C15: with a non-empty delimiter `split` terminates: it returns once it is allowed
more than `text.length / d.length` tests of its loop condition; every execution of the loop
body moves `start` to `end + d.length`, beyond its old value and not beyond the end of the
text; and the body is executed at most `text.length / d.length` times. -/
theorem C15_split_terminates (text d : Str) (hd : d ≠ []) :
    (∃ tokens, ∀ fuel, text.length / d.length < fuel → split fuel text d = .returned tokens) ∧
    (splitInit text d).start ≤ text.length ∧
    ∀ fuel,
      (∀ it ∈ splitIterations text d fuel (splitInit text d),
        ∃ e, it.1.endPos = some e ∧ it.2.start = e + d.length ∧
          it.1.start < it.2.start ∧ it.2.start ≤ text.length) ∧
      (splitIterations text d fuel (splitInit text d)).length ≤ text.length / d.length := by
  have hdl : 0 < d.length := List.length_pos.mpr hd
  refine ⟨⟨segs d text, fun fuel h => split_eq_segs_of_div text d hd fuel h⟩,
    Nat.zero_le _, fun fuel => ?_⟩
  obtain ⟨h1, h2⟩ := splitIterations_spec text d hd fuel 0 [] (Nat.zero_le _)
  constructor
  · intro it hit
    obtain ⟨e, he, _, _, h3, h4, h5, _⟩ := h1 it hit
    exact ⟨e, he, h3, h4, h5⟩
  · rw [Nat.le_div_iff_mul_le hdl]
    exact h2

theorem C15_split_terminates_witness :
    (∃ tokens, ∀ fuel, 2 < fuel → split fuel ['a', 'a', 'a', 'a', 'a'] ['a', 'a'] = .returned tokens) ∧
    (splitInit ['a', 'a', 'a', 'a', 'a'] ['a', 'a']).start ≤ 5 ∧
    ∀ fuel,
      (∀ it ∈ splitIterations ['a', 'a', 'a', 'a', 'a'] ['a', 'a'] fuel
          (splitInit ['a', 'a', 'a', 'a', 'a'] ['a', 'a']),
        ∃ e, it.1.endPos = some e ∧ it.2.start = e + 2 ∧
          it.1.start < it.2.start ∧ it.2.start ≤ 5) ∧
      (splitIterations ['a', 'a', 'a', 'a', 'a'] ['a', 'a'] fuel
        (splitInit ['a', 'a', 'a', 'a', 'a'] ['a', 'a'])).length ≤ 2 :=
  C15_split_terminates ['a', 'a', 'a', 'a', 'a'] ['a', 'a'] (by decide)

/-! ## `split` with the empty delimiter -/

theorem strFind_nil (s : Str) (pos : Nat) (h : pos ≤ s.length) : strFind s [] pos = some pos := by
  unfold strFind
  rw [if_pos h]
  exact findFrom_pos [] _ pos List.nil_prefix

theorem splitBody_nil (s : Str) (tokens : List Str) :
    splitBody s [] { tokens := tokens, start := 0, endPos := some 0 } 0
      = some { tokens := tokens ++ [[]], start := 0, endPos := some 0 } := by
  simp [splitBody, substr, strFind_nil s 0 (Nat.zero_le _)]

theorem splitLoop_nil_running (s : Str) (fuel : Nat) :
    ∀ tokens, splitLoop s [] fuel { tokens := tokens, start := 0, endPos := some 0 }
      = .running := by
  induction fuel with
  | zero =>
    intro tokens
    rfl
  | succ fuel ih =>
    intro tokens
    rw [splitLoop]
    simp only [splitBody_nil]
    exact ih _

theorem splitIterations_nil (s : Str) (fuel : Nat) :
    ∀ tokens,
      (splitIterations s [] fuel { tokens := tokens, start := 0, endPos := some 0 }).length
        = fuel ∧
      ∀ it ∈ splitIterations s [] fuel { tokens := tokens, start := 0, endPos := some 0 },
        it.1.start = 0 ∧ it.1.endPos = some 0 ∧ it.2.start = 0 ∧ it.2.endPos = some 0 ∧
          it.2.tokens = it.1.tokens ++ [[]] := by
  induction fuel with
  | zero =>
    intro tokens
    simp [splitIterations]
  | succ fuel ih =>
    intro tokens
    have hunfold : splitIterations s [] (fuel + 1)
        { tokens := tokens, start := 0, endPos := some 0 }
        = ({ tokens := tokens, start := 0, endPos := some 0 },
           { tokens := tokens ++ [[]], start := 0, endPos := some 0 })
          :: splitIterations s [] fuel { tokens := tokens ++ [[]], start := 0, endPos := some 0 } := by
      rw [splitIterations]
      simp only [splitBody_nil]
    obtain ⟨ih1, ih2⟩ := ih (tokens ++ [[]])
    rw [hunfold]
    constructor
    · rw [List.length_cons, ih1]
    · intro it hit
      rcases List.mem_cons.mp hit with rfl | hit'
      · exact ⟨rfl, rfl, rfl, rfl, rfl⟩
      · exact ih2 it hit'

/-- Claim C16: with the empty delimiter, for any text, the first search finds a match at
position `0`; every execution of the loop body appends an empty token and leaves `start` and
`end` at `0`; however many tests of the loop condition are allowed, the body has run at each
of them and `split` has not returned. -/
theorem C16_split_empty_delimiter_diverges (text : Str) :
    (splitInit text []).endPos = some 0 ∧
    (∀ tokens, splitBody text [] { tokens := tokens, start := 0, endPos := some 0 } 0
      = some { tokens := tokens ++ [[]], start := 0, endPos := some 0 }) ∧
    (∀ fuel, (splitIterations text [] fuel (splitInit text [])).length = fuel) ∧
    (∀ fuel, ∀ it ∈ splitIterations text [] fuel (splitInit text []),
      it.2.tokens = it.1.tokens ++ [[]] ∧ it.2.start = 0 ∧ it.2.endPos = some 0) ∧
    ∀ fuel, split fuel text [] = .running := by
  have h0 : strFind text [] 0 = some 0 := strFind_nil text 0 (Nat.zero_le _)
  have hinit : splitInit text [] = { tokens := [], start := 0, endPos := some 0 } := by
    simp [splitInit, h0]
  refine ⟨by rw [hinit], splitBody_nil text, fun fuel => ?_, fun fuel it hit => ?_,
    fun fuel => ?_⟩
  · rw [hinit]
    exact (splitIterations_nil text fuel []).1
  · rw [hinit] at hit
    obtain ⟨_, _, h3, h4, h5⟩ := (splitIterations_nil text fuel []).2 it hit
    exact ⟨h5, h3, h4⟩
  · have : split fuel text [] = splitLoop text [] fuel (splitInit text []) := rfl
    rw [this, hinit]
    exact splitLoop_nil_running text fuel []

/-! ## `split` after `join`, one-character delimiter -/

theorem findFrom_singleton_append (c : Char) (p r : Str) (hp : c ∉ p) (i : Nat) :
    findFrom [c] (p ++ c :: r) i = some (i + p.length) := by
  induction p generalizing i with
  | nil => exact findFrom_pos [c] (c :: r) i ⟨r, rfl⟩
  | cons a p ih =>
    have ha : a ≠ c := fun e => hp (by simp [e])
    have hp' : c ∉ p := fun h => hp (List.mem_cons_of_mem a h)
    have hno : ¬ [c] <+: a :: (p ++ c :: r) := by
      rintro ⟨t, ht⟩
      simp only [List.singleton_append, List.cons.injEq] at ht
      exact ha ht.1.symm
    rw [List.cons_append, findFrom_cons_neg [c] _ a i hno, ih hp' (i + 1), List.length_cons]
    congr 1
    omega

theorem not_mem_of_contains_false (c : Char) (p : Str) (h : contains p [c] = false) :
    c ∉ p := by
  intro hc
  obtain ⟨a, b, rfl⟩ := List.append_of_mem hc
  have : contains (a ++ c :: b) [c] = true :=
    (contains_eq_true_iff _ _).mpr ⟨a, b, by simp⟩
  rw [this] at h
  exact absurd h (by decide)

theorem findFrom_singleton_none (c : Char) (p : Str) (hp : c ∉ p) (i : Nat) :
    findFrom [c] p i = none := by
  rw [findFrom_none_iff]
  rintro ⟨a, b, h⟩
  exact hp (by rw [← h]; simp)

theorem segsAux_join_singleton (c : Char) (parts : List Str) (hne : parts ≠ [])
    (hfree : ∀ p ∈ parts, c ∉ p) :
    ∀ n, (join parts [c]).length ≤ n → segsAux [c] n (join parts [c]) = parts := by
  induction parts with
  | nil => exact absurd rfl hne
  | cons p rest ih =>
    intro n hn
    have hp : c ∉ p := hfree p (List.mem_cons_self p rest)
    cases rest with
    | nil =>
      rw [join_singleton, segsAux_of_none _ _ _ (findFrom_singleton_none c p hp 0)]
    | cons q rest =>
      have hrest : ∀ x ∈ q :: rest, c ∉ x := fun x hx => hfree x (List.mem_cons_of_mem p hx)
      have hj : join (p :: q :: rest) [c] = p ++ c :: join (q :: rest) [c] := by
        rw [join_cons_cons]
        simp
      rw [hj] at hn ⊢
      have hfind : findFrom [c] (p ++ c :: join (q :: rest) [c]) 0 = some p.length := by
        rw [findFrom_singleton_append c p _ hp 0, Nat.zero_add]
      have hlen : (p ++ c :: join (q :: rest) [c]).length
          = p.length + 1 + (join (q :: rest) [c]).length := by
        simp
        omega
      obtain ⟨n', rfl⟩ : ∃ n', n = n' + 1 := ⟨n - 1, by omega⟩
      rw [segsAux_of_some _ _ _ _ hfind, List.take_left' rfl]
      have hdrop : (p ++ c :: join (q :: rest) [c]).drop (p.length + [c].length)
          = join (q :: rest) [c] := by
        have e : p ++ c :: join (q :: rest) [c] = (p ++ [c]) ++ join (q :: rest) [c] := by simp
        rw [e, List.drop_left' (by simp)]
      rw [hdrop, ih (by simp) hrest n' (by omega)]

/-- Claim C17: for a delimiter `d` of length one and a non-empty sequence `parts` none of whose
elements contains `d`, `split` of `join parts d` returns, and returns `parts`. -/
theorem C17_split_join_roundtrip (d : Str) (parts : List Str) (hd : d.length = 1)
    (hne : parts ≠ []) (hfree : ∀ p ∈ parts, contains p d = false) :
    ∀ fuel, (join parts d).length < fuel → split fuel (join parts d) d = .returned parts := by
  obtain ⟨c, rfl⟩ := List.length_eq_one.mp hd
  intro fuel hf
  rw [split_eq_segs _ [c] (by simp) fuel hf]
  congr 1
  exact segsAux_join_singleton c parts hne
    (fun p hp => not_mem_of_contains_false c p (hfree p hp)) _ le_rfl

theorem C17_split_join_roundtrip_witness :
    split 6 (join [['a'], [], ['b', 'c']] [',']) [','] = .returned [['a'], [], ['b', 'c']] :=
  C17_split_join_roundtrip [','] [['a'], [], ['b', 'c']] (by decide) (by decide) (by decide)
    6 (by decide)

/-! ## The number of pieces -/

/-- Claim C18: with a non-empty delimiter `split` never returns an empty sequence: the
sequence it returns has at least one element, and exactly one more than the number of
executions of the loop body, each of which is entered at the match that the search from
`start` finds and resumes the search behind that match. -/
theorem C18_split_count (text d : Str) (hd : d ≠ []) :
    ∃ tokens, tokens ≠ [] ∧ 1 ≤ tokens.length ∧
      ∀ fuel, text.length / d.length < fuel →
        split fuel text d = .returned tokens ∧
        tokens.length = (splitIterations text d fuel (splitInit text d)).length + 1 ∧
        ∀ it ∈ splitIterations text d fuel (splitInit text d),
          ∃ e, strFind text d it.1.start = some e ∧ it.1.endPos = some e ∧
            it.2.start = e + d.length := by
  have hdl : 0 < d.length := List.length_pos.mpr hd
  have hne : segs d text ≠ [] := segsAux_ne_nil d text text.length
  refine ⟨segs d text, hne, List.length_pos.mpr hne, fun fuel hf => ?_⟩
  have h2 : text.length < fuel * d.length := (Nat.div_lt_iff_lt_mul hdl).mp hf
  refine ⟨split_eq_segs_of_div text d hd fuel hf, ?_, ?_⟩
  · have h := segsAux_length_eq_iterations text d hd fuel text.length 0 [] (Nat.zero_le _)
      (by omega) (by omega)
    simpa [segs, splitInit] using h
  · intro it hit
    obtain ⟨e, he, hfind, _, h3, _⟩ :=
      (splitIterations_spec text d hd fuel 0 [] (Nat.zero_le _)).1 it hit
    exact ⟨e, hfind, he, h3⟩

theorem C18_split_count_witness :
    ∃ tokens : List Str, tokens ≠ [] ∧ 1 ≤ tokens.length ∧
      ∀ fuel, 4 < fuel →
        split fuel ['a', ',', 'b', ','] [','] = .returned tokens ∧
        tokens.length
          = (splitIterations ['a', ',', 'b', ','] [','] fuel
              (splitInit ['a', ',', 'b', ','] [','])).length + 1 ∧
        ∀ it ∈ splitIterations ['a', ',', 'b', ','] [','] fuel
            (splitInit ['a', ',', 'b', ','] [',']),
          ∃ e, strFind ['a', ',', 'b', ','] [','] it.1.start = some e ∧ it.1.endPos = some e ∧
            it.2.start = e + 1 :=
  C18_split_count ['a', ',', 'b', ','] [','] (by decide)

/-! ## `find` after `append` -/

theorem stdFind_append_of_mem {T : Type} [DecidableEq T] (v : List T) (x : T) (hx : x ∈ v) :
    stdFind (v ++ [x]) x = stdFind v x := by
  induction v with
  | nil => exact absurd hx (List.not_mem_nil x)
  | cons a rest ih =>
    by_cases h : a = x
    · simp [stdFind, h]
    · have hrest : x ∈ rest := by
        rcases List.mem_cons.mp hx with e | hm
        · exact absurd e.symm h
        · exact hm
      simp [stdFind, h, ih hrest]

theorem stdFind_append_of_not_mem {T : Type} [DecidableEq T] (v : List T) (x : T)
    (hx : x ∉ v) : stdFind (v ++ [x]) x = v.length := by
  induction v with
  | nil => simp [stdFind]
  | cons a rest ih =>
    have h : a ≠ x := fun e => hx (by simp [e])
    have hrest : x ∉ rest := fun hm => hx (List.mem_cons_of_mem a hm)
    simp [stdFind, h, ih hrest]

/-- The first half of claim C19 holds for every sequence: when the value already occurs,
`find` returns after the `append` what it returned before. -/
theorem find_append_of_mem {T : Type} [DecidableEq T] (v : List T) (x : T) (hx : x ∈ v) :
    find (append v x) x = find v x := by
  have h1 := stdFind_lt_of_mem hx
  unfold find append
  rw [stdFind_append_of_mem v x hx, List.length_append, List.length_singleton]
  simp only [ne_eq, Nat.ne_of_lt h1, Nat.ne_of_lt (Nat.lt_succ_of_lt h1), not_false_eq_true,
    if_true]

theorem find_append_of_not_mem {T : Type} [DecidableEq T] (v : List T) (x : T) (hx : x ∉ v) :
    find (append v x) x = toInt v.length := by
  unfold find append
  rw [stdFind_append_of_not_mem v x hx, List.length_append, List.length_singleton]
  simp

/-- Short of `2^31` elements the second half of claim C19 holds too: when the value does not
occur, `find` returns the old length after the `append`, which is not `-1`. -/
theorem find_append_of_not_mem_of_small {T : Type} [DecidableEq T] (v : List T) (x : T)
    (hx : x ∉ v) (hsmall : v.length < 2 ^ 31) :
    find (append v x) x = (v.length : Int) ∧ find (append v x) x ≠ -1 := by
  have h := (find_append_of_not_mem v x hx).trans (toInt_of_lt hsmall)
  refine ⟨h, ?_⟩
  rw [h]
  omega

/-- Claim C19, at vectors of `2^31` and of `2^32 - 1` elements in which the value does not
occur: after the `append`, `find` returns `-2147483648`, not the old length `2147483648`, and
for the longer vector it returns `-1`. -/
theorem C19_find_after_append_narrows :
    (1 : Nat) ∉ List.replicate 2147483648 0 ∧
    find (append (List.replicate 2147483648 0) 1) (1 : Nat) = -2147483648 ∧
    (1 : Nat) ∉ List.replicate 4294967295 0 ∧
    find (append (List.replicate 4294967295 0) 1) (1 : Nat) = -1 := by
  have hno : ∀ n : Nat, (1 : Nat) ∉ List.replicate n 0 :=
    fun n h => absurd (List.eq_of_mem_replicate h) (by decide)
  have hlen : ∀ n : Nat, (List.replicate n (0 : Nat)).length = n :=
    fun n => List.length_replicate n 0
  refine ⟨hno _, ?_, hno _, ?_⟩
  · have h := find_append_of_not_mem (List.replicate 2147483648 0) 1 (hno _)
    rw [hlen] at h
    exact h.trans toInt_two_pow_31
  · have h := find_append_of_not_mem (List.replicate 4294967295 0) 1 (hno _)
    rw [hlen] at h
    exact h.trans toInt_two_pow_32_sub_one

end rl
